import Mathlib

/-!
# Verification of `scripts/run_ptb.py`

A shallow embedding of the PTB runner script. The script

  * tokenizes the PTB file's text with `shlex.split(source, comments=True)`
    (POSIX mode, `whitespace_split=True`),
  * expands `$NAME` / `${NAME}` environment references in each token with
    `re.sub` over the pattern `\$(\w+)|\$\{([^}]+)\}`, aborting with exit
    code 1 on the first missing variable,
  * fails with exit code 1 when no tokens remain,
  * runs `["sui", "client", "ptb", *extra, *tokens]` as a subprocess and
    forwards its exit code (a `CalledProcessError` is caught and its return
    code returned; a `FileNotFoundError` from launching propagates and the
    interpreter exits with code 1).

The embedding models each of those stages as an executable Lean function on
`List Char` / `List String`, and the whole `main` as a pure function of the
pass-through arguments, the script text, the environment mapping and the
behavior of the external tool.
-/

namespace RunPtb

/-! ## Tokenizer: `shlex.split(s, comments=True)` (POSIX mode)

`shlex.split` drives the `shlex` lexer with `posix=True`,
`whitespace_split=True`, `commenters='#'`, `quotes='\'"'`, `escape='\\'`,
`escapedquotes='"'` and `whitespace=' \t\r\n'`.  The lexer is a character
state machine; we reproduce it state for state.  The only departure in shape
is that the comment skip (`instream.readline()`) is modelled as an explicit
`comment` state that consumes characters up to and including the next
newline, which keeps the recursion structural. -/

/-- The characters `shlex` treats as token delimiters (`shlex.whitespace`). -/
def isShlexWS (c : Char) : Bool :=
  c = ' ' || c = '\t' || c = '\r' || c = '\n'

/-- States of the `shlex` lexer: between tokens (`' '`), inside a word
(`'a'`), inside single/double quotes, after an escape character outside
quotes resp. inside double quotes, and skipping a comment line. -/
inductive LexState where
  | ws
  | word
  | singleQ
  | doubleQ
  | escWord
  | escDouble
  | comment
deriving DecidableEq

/-- One pass of the `shlex` lexer over the remaining input.  `cur` is the
token built so far, `quoted` records whether the current token saw a quote
(so that `''` yields an empty token), `acc` the tokens already emitted.
Unterminated quotes and a trailing escape character raise `ValueError` in
Python; here they return `Except.error` with the same message. -/
def shlexAux : LexState → List Char → Bool → List String → List Char →
    Except String (List String)
  | .ws, _, _, acc, [] => .ok acc
  | .word, cur, quoted, acc, [] =>
      if cur ≠ [] ∨ quoted = true then .ok (acc ++ [String.mk cur]) else .ok acc
  | .singleQ, _, _, _, [] => .error "No closing quotation"
  | .doubleQ, _, _, _, [] => .error "No closing quotation"
  | .escWord, _, _, _, [] => .error "No escaped character"
  | .escDouble, _, _, _, [] => .error "No escaped character"
  | .comment, _, _, acc, [] => .ok acc
  | .ws, _, _, acc, c :: rest =>
      if isShlexWS c then shlexAux .ws [] false acc rest
      else if c = '#' then shlexAux .comment [] false acc rest
      else if c = '\\' then shlexAux .escWord [] false acc rest
      else if c = '\'' then shlexAux .singleQ [] false acc rest
      else if c = '"' then shlexAux .doubleQ [] false acc rest
      else shlexAux .word [c] false acc rest
  | .word, cur, quoted, acc, c :: rest =>
      if isShlexWS c then
        if cur ≠ [] ∨ quoted = true then
          shlexAux .ws [] false (acc ++ [String.mk cur]) rest
        else shlexAux .ws [] false acc rest
      else if c = '#' then
        if cur ≠ [] ∨ quoted = true then
          shlexAux .comment [] false (acc ++ [String.mk cur]) rest
        else shlexAux .comment [] false acc rest
      else if c = '\'' then shlexAux .singleQ cur quoted acc rest
      else if c = '"' then shlexAux .doubleQ cur quoted acc rest
      else if c = '\\' then shlexAux .escWord cur quoted acc rest
      else shlexAux .word (cur ++ [c]) quoted acc rest
  | .singleQ, cur, _, acc, c :: rest =>
      if c = '\'' then shlexAux .word cur true acc rest
      else shlexAux .singleQ (cur ++ [c]) true acc rest
  | .doubleQ, cur, _, acc, c :: rest =>
      if c = '"' then shlexAux .word cur true acc rest
      else if c = '\\' then shlexAux .escDouble cur true acc rest
      else shlexAux .doubleQ (cur ++ [c]) true acc rest
  | .escWord, cur, quoted, acc, c :: rest =>
      shlexAux .word (cur ++ [c]) quoted acc rest
  | .escDouble, cur, quoted, acc, c :: rest =>
      if c = '\\' ∨ c = '"' then shlexAux .doubleQ (cur ++ [c]) quoted acc rest
      else shlexAux .doubleQ (cur ++ ['\\', c]) quoted acc rest
  | .comment, _, _, acc, c :: rest =>
      if c = '\n' then shlexAux .ws [] false acc rest
      else shlexAux .comment [] false acc rest

/-- `shlex.split(s, comments=True)`: either the token list or a
`ValueError` message. -/
def shlex_split (s : String) : Except String (List String) :=
  shlexAux .ws [] false [] s.toList

example : shlex_split "a b" = .ok ["a", "b"] := rfl
example : shlex_split "\"hello world\" foo" = .ok ["hello world", "foo"] := rfl
example : shlex_split "'hello world'" = .ok ["hello world"] := rfl
example : shlex_split "a#b" = .ok ["a"] := rfl
example : shlex_split "''" = .ok [""] := rfl
example : shlex_split "a'b c'd" = .ok ["ab cd"] := rfl
example : shlex_split "#only\n  \t\n# more" = .ok [] := rfl
example : shlex_split "x # trailing\ny" = .ok ["x", "y"] := rfl
example : shlex_split "\"a\\nb\"" = .ok ["a\\nb"] := rfl
example : shlex_split "\"a\\\"b\"" = .ok ["a\"b"] := rfl
example : shlex_split "\\a" = .ok ["a"] := rfl
example : shlex_split "'abc" = .error "No closing quotation" := rfl
example : shlex_split "abc\\" = .error "No escaped character" := rfl
example : shlex_split "\"abc\\" = .error "No escaped character" := rfl
example : shlex_split "# comment\nmove $SRC $DST  # trailing" =
    .ok ["move", "$SRC", "$DST"] := rfl

/-! ## Variable expander: `expand_env`

`expand_env` applies `ENV_VAR_PATTERN.sub(replace, token)` with
`ENV_VAR_PATTERN = re.compile(r"\$(\w+)|\$\{([^}]+)\}")`.  `re.sub` scans
left to right; at each position it tries the bare form `$NAME` (one or more
word characters, greedy) and then the braced form `${NAME}` (one or more
non-`}` characters); on a match `replace` looks the name up in `os.environ`
and either returns its value verbatim (the value is never rescanned) or
raises `SystemExit(1)` after printing the name to stderr; on no match one
character is copied through and scanning resumes after it.

The environment is modelled as an association list; `\w` is modelled as
ASCII alphanumerics plus underscore.  The scan is a character state machine:
`normal` (copying), `dollar` (just read `$`), `name w` (accumulating a bare
name, `w` nonempty), `brace w` (accumulating a braced name).  An unclosed
`${...` at end of input is not a match: `re.sub` copies the `$` and rescans
from the `{`; since the remainder contains no `}`, only bare references can
match there, which `expandBareAux` (the same machine without the brace
state) performs. -/

/-- Word characters of the regex class `\w` (ASCII). -/
def isWordChar (c : Char) : Bool :=
  c.isAlphanum || c = '_'

/-- Environment mapping, as an association list (first binding wins). -/
abbrev Env := List (String × String)

/-- `name in os.environ` / `os.environ[name]`. -/
def lookupEnv : Env → String → Option String
  | [], _ => none
  | (k, v) :: rest, name => if k = name then some v else lookupEnv rest name

/-- The `replace` callback at a matched name `w`: on a missing variable the
run aborts carrying the variable's name, otherwise the value is substituted
verbatim in front of the expansion `k` of the rest of the token. -/
def resolveK (env : Env) (w : List Char) (k : Except String (List Char)) :
    Except String (List Char) :=
  match lookupEnv env (String.mk w) with
  | none => .error (String.mk w)
  | some v => k.map (fun e => v.toList ++ e)

/-- Scanner states for input known to contain no `}` (so the braced form
cannot match and `{` is an ordinary character). -/
inductive BareState where
  | normal
  | dollar
  | name (w : List Char)

/-- `re.sub` scan over text containing no `}`: only bare `$NAME` references
can match. -/
def expandBareAux (env : Env) : BareState → List Char → Except String (List Char)
  | .normal, [] => .ok []
  | .dollar, [] => .ok ['$']
  | .name w, [] => resolveK env w (.ok [])
  | .normal, c :: rest =>
      if c = '$' then expandBareAux env .dollar rest
      else (expandBareAux env .normal rest).map (fun e => c :: e)
  | .dollar, c :: rest =>
      if isWordChar c then expandBareAux env (.name [c]) rest
      else if c = '$' then (expandBareAux env .dollar rest).map (fun e => '$' :: e)
      else (expandBareAux env .normal rest).map (fun e => '$' :: c :: e)
  | .name w, c :: rest =>
      if isWordChar c then expandBareAux env (.name (w ++ [c])) rest
      else if c = '$' then resolveK env w (expandBareAux env .dollar rest)
      else resolveK env w ((expandBareAux env .normal rest).map (fun e => c :: e))

/-- Scanner states of the full `re.sub` scan. -/
inductive ExpState where
  | normal
  | dollar
  | name (w : List Char)
  | brace (w : List Char)

/-- The full `re.sub` scan of one token for `\$(\w+)|\$\{([^}]+)\}`. -/
def expandFullAux (env : Env) : ExpState → List Char → Except String (List Char)
  | .normal, [] => .ok []
  | .dollar, [] => .ok ['$']
  | .name w, [] => resolveK env w (.ok [])
  | .brace w, [] => (expandBareAux env .normal w).map (fun e => '$' :: '{' :: e)
  | .normal, c :: rest =>
      if c = '$' then expandFullAux env .dollar rest
      else (expandFullAux env .normal rest).map (fun e => c :: e)
  | .dollar, c :: rest =>
      if isWordChar c then expandFullAux env (.name [c]) rest
      else if c = '{' then expandFullAux env (.brace []) rest
      else if c = '$' then (expandFullAux env .dollar rest).map (fun e => '$' :: e)
      else (expandFullAux env .normal rest).map (fun e => '$' :: c :: e)
  | .name w, c :: rest =>
      if isWordChar c then expandFullAux env (.name (w ++ [c])) rest
      else if c = '$' then resolveK env w (expandFullAux env .dollar rest)
      else resolveK env w ((expandFullAux env .normal rest).map (fun e => c :: e))
  | .brace w, c :: rest =>
      if c = '}' then
        if w ≠ [] then resolveK env w (expandFullAux env .normal rest)
        else (expandFullAux env .normal rest).map (fun e => '$' :: '{' :: '}' :: e)
      else expandFullAux env (.brace (w ++ [c])) rest

/-- Expansion of one token's characters. -/
def expandEnvChars (env : Env) (l : List Char) : Except String (List Char) :=
  expandFullAux env .normal l

/-- `expand_env(token)`: the expanded token, or the name of the first
missing environment variable. -/
def expand_env (env : Env) (token : String) : Except String String :=
  (expandEnvChars env token.toList).map String.mk

/-- `[expand_env(tok) for tok in tokens]`: token-wise expansion, aborting on
the first token whose expansion hits a missing variable. -/
def expandTokens (env : Env) : List String → Except String (List String)
  | [] => .ok []
  | t :: ts =>
      match expand_env env t with
      | .error n => .error n
      | .ok e => (expandTokens env ts).map (fun es => e :: es)

example : expand_env [("FOO", "X")] "a$FOO-b" = .ok "aX-b" := rfl
example : expand_env [("BAR BAZ", "v")] "${BAR BAZ}" = .ok "v" := rfl
example : expand_env [("x", "X")] "$ ${} ${x}y\x7do" = .ok "$ ${} Xy\x7do" := rfl
example : expand_env [("a", "1"), ("b", "2")] "$a$b" = .ok "12" := rfl
example : expand_env [("FOO", "$BAR")] "$FOO" = .ok "$BAR" := rfl
example : expand_env [("b", "B")] "$\x7ba$b" = .ok "$\x7baB" := rfl
example : expand_env [] "$FOO" = .error "FOO" := rfl
example : expand_env [] "x$\x7by" = .ok "x$\x7by" := rfl
example : expand_env [("A", "1")] "$$A" = .ok "$1" := rfl
example : expand_env [] "${}" = .ok "${}" := rfl
example : expand_env [("SRC", "a.txt")] "$SRC" = .ok "a.txt" := rfl
example : expandTokens [("SRC", "a.txt"), ("DST", "b.txt")]
    ["move", "$SRC", "$DST"] = .ok ["move", "a.txt", "b.txt"] := rfl
example : expandTokens [] ["a", "$FOO", "$BAR"] = .error "FOO" := rfl

/-! ## The `main` pipeline

`main` reads the script, tokenizes with expansion
(`[expand_env(tok) for tok in shlex.split(ptb_source, comments=True)]`),
returns 1 on an empty token list, builds
`cmd = ["sui", "client", "ptb", *args.extra, *tokens]` and runs it with
`subprocess.run(cmd, check=True)`.  Reading the file is outside the model:
the script text is an input.  The external tool is modelled by its
observable behavior: either it cannot be launched (`FileNotFoundError`) or
it runs and exits with some code. -/

/-- Observable behavior of the external `sui` tool. -/
inductive ToolBehavior where
  | notFound
  | exits (code : Nat)

/-- Outcome of one run of the wrapper.

  * `tokenizationError msg`: `shlex.split` raised `ValueError(msg)`; the
    exception is uncaught, so the interpreter prints a traceback to stderr
    and the process exits with code 1.
  * `missingVariable name`: `expand_env` printed
    `"Missing required environment variable: " ++ name` to stderr and raised
    `SystemExit(1)`.
  * `emptyScript`: `main` printed `"No PTB commands found in <path>"` to
    stderr and returned 1.
  * `launchError`: `subprocess.run` raised `FileNotFoundError`; uncaught, so
    a traceback goes to stderr and the process exits with code 1.
  * `toolRan cmd code`: the tool was invoked with argument vector `cmd`, ran
    to completion and exited with `code`, which `main` returns (0 directly,
    non-zero via the caught `CalledProcessError`). -/
inductive RunResult where
  | tokenizationError (msg : String)
  | missingVariable (name : String)
  | emptyScript
  | launchError
  | toolRan (cmd : List String) (code : Nat)
deriving DecidableEq

/-- The wrapper process's exit code for each outcome (an uncaught Python
exception, `SystemExit(1)` included, makes the interpreter exit with 1). -/
def RunResult.exitCode : RunResult → Nat
  | .tokenizationError _ => 1
  | .missingVariable _ => 1
  | .emptyScript => 1
  | .launchError => 1
  | .toolRan _ code => code

/-- Whether the external tool actually ran. -/
def RunResult.toolInvoked : RunResult → Bool
  | .toolRan _ _ => true
  | _ => false

/-- Whether the failure surfaced an error indication on the wrapper's
standard error stream (an explicit message or an uncaught-exception
traceback). -/
def RunResult.errorOnStderr : RunResult → Bool
  | .toolRan _ _ => false
  | _ => true

/-- The message the wrapper itself prints to stderr, for the outcome where
the model knows its exact text (line 45 of the script); the other failing
outcomes print a path-dependent message or a traceback. -/
def RunResult.wrapperStderr : RunResult → Option String
  | .missingVariable name =>
      some ("Missing required environment variable: " ++ name)
  | _ => none

/-- The fixed head of the argument vector: tool name and subcommands. -/
def baseCmd : List String := ["sui", "client", "ptb"]

/-- The whole run of `main` (after the file read), as a function of the
pass-through arguments `extra`, the script text, the environment and the
tool's behavior. -/
def main (extra : List String) (script : String) (env : Env)
    (tool : ToolBehavior) : RunResult :=
  match shlex_split script with
  | .error msg => .tokenizationError msg
  | .ok toks =>
      match expandTokens env toks with
      | .error name => .missingVariable name
      | .ok tokens =>
          if tokens.isEmpty then .emptyScript
          else
            match tool with
            | .notFound => .launchError
            | .exits code => .toolRan (baseCmd ++ extra ++ tokens) code

example :
    main ["--dry-run"] "# comment\nmove $SRC $DST  # trailing"
      [("SRC", "a.txt"), ("DST", "b.txt")] (.exits 0) =
    .toolRan ["sui", "client", "ptb", "--dry-run", "move", "a.txt", "b.txt"] 0 := rfl
example : main [] "move $SRC" [] (.exits 0) = .missingVariable "SRC" := rfl
example : main [] "# nothing\n" [] (.exits 0) = .emptyScript := rfl
example : main [] "'oops" [] (.exits 0) =
    .tokenizationError "No closing quotation" := rfl
example : main [] "a" [] (.exits 3) = .toolRan ["sui", "client", "ptb", "a"] 3 := rfl
example : main [] "a" [] .notFound = .launchError := rfl

/-! ## Auxiliary predicates for the claims -/

/-- Text consisting only of whitespace and comments: in normal mode
(`b = false`) every character is whitespace or starts a comment; in comment
mode (`b = true`) the line runs to the next newline. -/
def commentsOnly : Bool → List Char → Bool
  | _, [] => true
  | false, c :: rest =>
      if isShlexWS c then commentsOnly false rest
      else if c = '#' then commentsOnly true rest
      else false
  | true, c :: rest =>
      if c = '\n' then commentsOnly false rest else commentsOnly true rest

/-- A character with no lexical role in `shlex`: not a delimiter, not a
comment starter, not an escape, not a quote. -/
def plainChar (c : Char) : Bool :=
  !isShlexWS c && !(c = '#') && !(c = '\\') && !(c = '\'') && !(c = '"')

/-- Quote-tracking modes: outside any quote, inside single quotes, inside
double quotes, after an escape character outside quotes resp. inside double
quotes, and inside a comment. -/
inductive QMode where
  | out
  | inS
  | inD
  | escO
  | escD
  | inCom
deriving DecidableEq

/-- A scan of the raw text that only tracks quoting (with `shlex`'s comment
and escape rules), returning the mode in force at the end of the text. -/
def quoteScan : QMode → List Char → QMode
  | m, [] => m
  | .out, c :: rest =>
      if isShlexWS c then quoteScan .out rest
      else if c = '#' then quoteScan .inCom rest
      else if c = '\\' then quoteScan .escO rest
      else if c = '\'' then quoteScan .inS rest
      else if c = '"' then quoteScan .inD rest
      else quoteScan .out rest
  | .inCom, c :: rest =>
      if c = '\n' then quoteScan .out rest else quoteScan .inCom rest
  | .inS, c :: rest =>
      if c = '\'' then quoteScan .out rest else quoteScan .inS rest
  | .inD, c :: rest =>
      if c = '"' then quoteScan .out rest
      else if c = '\\' then quoteScan .escD rest
      else quoteScan .inD rest
  | .escO, _ :: rest => quoteScan .out rest
  | .escD, _ :: rest => quoteScan .inD rest

/-- The quote-tracking mode a lexer state corresponds to. -/
def LexState.qmode : LexState → QMode
  | .ws => .out
  | .word => .out
  | .singleQ => .inS
  | .doubleQ => .inD
  | .escWord => .escO
  | .escDouble => .escD
  | .comment => .inCom

/-- Modes in which reaching the end of input makes the lexer raise. -/
def QMode.failing : QMode → Bool
  | .inS => true
  | .inD => true
  | .escO => true
  | .escD => true
  | _ => false

/-- The script text contains an unterminated single or double quote: the
quote scan ends inside a quote (`escD` is inside an unterminated double
quote, after a trailing escape character). -/
def unterminatedQuote (s : String) : Bool :=
  quoteScan .out s.toList = .inS || quoteScan .out s.toList = .inD ||
    quoteScan .out s.toList = .escD

/-! ## Helper lemmas -/

/-- Token-wise expansion reports the error of the first failing token. -/
theorem expandTokens_error_first (env : Env) (ts1 : List String) (t : String)
    (ts2 : List String) (name : String)
    (hok : ∀ u ∈ ts1, ∃ e, expand_env env u = .ok e)
    (hfail : expand_env env t = .error name) :
    expandTokens env (ts1 ++ t :: ts2) = .error name := by
  induction ts1 with
  | nil => simp only [List.nil_append, expandTokens, hfail]
  | cons u us ih =>
      obtain ⟨e, he⟩ := hok u (List.mem_cons_self u us)
      have hrec : expandTokens env (us ++ t :: ts2) = .error name :=
        ih fun v hv => hok v (List.mem_cons_of_mem u hv)
      simp [expandTokens, he, hrec, Except.map]

/-- Successful token-wise expansion is element-wise. -/
theorem expandTokens_forall2 (env : Env) :
    ∀ toks etoks : List String, expandTokens env toks = .ok etoks →
      List.Forall₂ (fun t e => expand_env env t = .ok e) toks etoks := by
  intro toks
  induction toks with
  | nil =>
      intro etoks h
      simp only [expandTokens, Except.ok.injEq] at h
      rw [← h]
      exact List.Forall₂.nil
  | cons t ts ih =>
      intro etoks h
      simp only [expandTokens] at h
      cases he : expand_env env t with
      | error n => rw [he] at h; exact absurd h (by simp)
      | ok e =>
          rw [he] at h
          cases hts : expandTokens env ts with
          | error n => rw [hts] at h; simp [Except.map] at h
          | ok es =>
              rw [hts] at h
              simp only [Except.map, Except.ok.injEq] at h
              rw [← h]
              exact List.Forall₂.cons he (ih es hts)

/-- On comment-and-whitespace-only input, the lexer emits no tokens. -/
theorem shlexAux_commentsOnly (l : List Char) :
    ∀ (b : Bool) (acc : List String), commentsOnly b l = true →
      shlexAux (if b then .comment else .ws) [] false acc l = .ok acc := by
  induction l with
  | nil => intro b acc _; cases b <;> simp [shlexAux]
  | cons c rest ih =>
      intro b acc h
      cases b with
      | false =>
          simp only [Bool.false_eq_true, if_false]
          by_cases hws : isShlexWS c
          · have := ih false acc (by simpa [commentsOnly, hws] using h)
            simpa [shlexAux, hws] using this
          · by_cases hc : c = '#'
            · have := ih true acc (by simpa [commentsOnly, hws, hc] using h)
              simpa [shlexAux, hws, hc] using this
            · simp [commentsOnly, hws, hc] at h
      | true =>
          simp only [if_true]
          by_cases hnl : c = '\n'
          · have := ih false acc (by simpa [commentsOnly, hnl] using h)
            simpa [shlexAux, hnl] using this
          · have := ih true acc (by simpa [commentsOnly, hnl] using h)
            simpa [shlexAux, hnl] using this

/-- In word state, input made of plain characters extends the current token
to the end and emits it. -/
theorem shlexAux_word_plain (rest : List Char) :
    ∀ (cur : List Char) (quoted : Bool) (acc : List String),
      (∀ c ∈ rest, plainChar c = true) → cur ≠ [] →
      shlexAux .word cur quoted acc rest = .ok (acc ++ [String.mk (cur ++ rest)]) := by
  induction rest with
  | nil => intro cur q acc _ hne; simp [shlexAux, hne]
  | cons c rest ih =>
      intro cur q acc h hne
      have hc := h c (List.mem_cons_self c rest)
      simp only [plainChar, Bool.and_eq_true, Bool.not_eq_true', decide_eq_false_iff_not]
        at hc
      obtain ⟨⟨⟨⟨hws, h1⟩, h2⟩, h3⟩, h4⟩ := hc
      have hstep : shlexAux .word cur q acc (c :: rest) =
          shlexAux .word (cur ++ [c]) q acc rest := by
        simp [shlexAux, hws, h1, h2, h3, h4]
      rw [hstep, ih (cur ++ [c]) q acc (fun d hd => h d (List.mem_cons_of_mem c hd))
        (by simp)]
      simp

/-- Inside single quotes, content free of `'` accumulates verbatim and the
closing quote yields the token. -/
theorem shlexAux_singleQ_closed (content : List Char) :
    ∀ (cur : List Char) (q : Bool) (acc : List String),
      (∀ c ∈ content, c ≠ '\'') →
      shlexAux .singleQ cur q acc (content ++ ['\'']) =
        .ok (acc ++ [String.mk (cur ++ content)]) := by
  induction content with
  | nil => intro cur q acc _; simp [shlexAux]
  | cons c cs ih =>
      intro cur q acc h
      have hc : c ≠ '\'' := h c (List.mem_cons_self c cs)
      have hstep : shlexAux .singleQ cur q acc ((c :: cs) ++ ['\'']) =
          shlexAux .singleQ (cur ++ [c]) true acc (cs ++ ['\'']) := by
        simp [shlexAux, hc]
      rw [hstep, ih (cur ++ [c]) true acc (fun d hd => h d (List.mem_cons_of_mem c hd))]
      simp

/-- Scanning a bare name: word characters accumulate onto `w`; at the first
non-word character (or the end) the name resolves and scanning continues in
normal mode. -/
theorem expandFull_name_append (env : Env) (suffix : List Char) :
    ∀ w rest : List Char, (∀ c ∈ suffix, isWordChar c = true) →
      (∀ c, rest.head? = some c → isWordChar c = false) →
      expandFullAux env (.name w) (suffix ++ rest) =
        resolveK env (w ++ suffix) (expandFullAux env .normal rest) := by
  induction suffix with
  | nil =>
      intro w rest _ hrest
      simp only [List.nil_append, List.append_nil]
      cases rest with
      | nil => simp [expandFullAux]
      | cons c r =>
          have hc : isWordChar c = false := hrest c rfl
          by_cases hd : c = '$'
          · subst hd
            simp [expandFullAux, hc]
          · simp [expandFullAux, hc, hd]
  | cons d ds ih =>
      intro w rest hsuf hrest
      have hd : isWordChar d = true := hsuf d (List.mem_cons_self d ds)
      have hstep : expandFullAux env (.name w) ((d :: ds) ++ rest) =
          expandFullAux env (.name (w ++ [d])) (ds ++ rest) := by
        simp [expandFullAux, hd]
      rw [hstep, ih (w ++ [d]) rest (fun c hc => hsuf c (List.mem_cons_of_mem d hc))
        hrest]
      simp

/-- Scanning a braced name: non-`}` characters accumulate onto `w`; the
closing `}` resolves the (nonempty) name and scanning continues in normal
mode. -/
theorem expandFull_brace_append (env : Env) (suffix : List Char) :
    ∀ w rest : List Char, (∀ c ∈ suffix, c ≠ '}') → w ++ suffix ≠ [] →
      expandFullAux env (.brace w) (suffix ++ '}' :: rest) =
        resolveK env (w ++ suffix) (expandFullAux env .normal rest) := by
  induction suffix with
  | nil =>
      intro w rest _ hw
      simp only [List.append_nil] at hw
      simp [expandFullAux, hw]
  | cons d ds ih =>
      intro w rest hs hw
      have hd : d ≠ '}' := hs d (List.mem_cons_self d ds)
      have hstep : expandFullAux env (.brace w) ((d :: ds) ++ '}' :: rest) =
          expandFullAux env (.brace (w ++ [d])) (ds ++ '}' :: rest) := by
        simp [expandFullAux, hd]
      rw [hstep, ih (w ++ [d]) rest (fun c hc => hs c (List.mem_cons_of_mem d hc))
        (by simp)]
      simp

/-- If the quote scan of the remaining input, started in the mode matching
the lexer's state, ends in a failing mode, the lexer raises. -/
theorem shlexAux_error_of_failing (l : List Char) :
    ∀ (st : LexState) (cur : List Char) (q : Bool) (acc : List String),
      (quoteScan st.qmode l).failing = true →
      ∃ msg, shlexAux st cur q acc l = .error msg := by
  induction l with
  | nil =>
      intro st cur q acc h
      cases st <;> simp [LexState.qmode, quoteScan, QMode.failing] at h <;>
        exact ⟨_, rfl⟩
  | cons c rest ih =>
      intro st cur q acc h
      cases st with
      | ws =>
          simp only [LexState.qmode, quoteScan] at h
          by_cases h1 : isShlexWS c
          · simp only [h1, if_true] at h
            simpa [shlexAux, h1] using ih .ws [] false acc h
          · simp only [h1, if_false] at h
            by_cases h2 : c = '#'
            · simp only [h2, if_true] at h ⊢
              simpa [shlexAux, h1, h2] using ih .comment [] false acc h
            · simp only [h2, if_false] at h
              by_cases h3 : c = '\\'
              · simp only [h3, if_true] at h
                simpa [shlexAux, h1, h2, h3] using ih .escWord [] false acc h
              · simp only [h3, if_false] at h
                by_cases h4 : c = '\''
                · simp only [h4, if_true] at h
                  simpa [shlexAux, h1, h2, h3, h4] using ih .singleQ [] false acc h
                · simp only [h4, if_false] at h
                  by_cases h5 : c = '"'
                  · simp only [h5, if_true] at h
                    simpa [shlexAux, h1, h2, h3, h4, h5] using ih .doubleQ [] false acc h
                  · simp only [h5, if_false] at h
                    simpa [shlexAux, h1, h2, h3, h4, h5] using ih .word [c] false acc h
      | word =>
          simp only [LexState.qmode, quoteScan] at h
          by_cases h1 : isShlexWS c
          · simp only [h1, if_true] at h
            by_cases he : cur ≠ [] ∨ q = true
            · simpa [shlexAux, h1, he] using
                ih .ws [] false (acc ++ [String.mk cur]) h
            · simpa [shlexAux, h1, he] using ih .ws [] false acc h
          · simp only [h1, if_false] at h
            by_cases h2 : c = '#'
            · simp only [h2, if_true] at h
              by_cases he : cur ≠ [] ∨ q = true
              · simpa [shlexAux, h1, h2, he] using
                  ih .comment [] false (acc ++ [String.mk cur]) h
              · simpa [shlexAux, h1, h2, he] using ih .comment [] false acc h
            · simp only [h2, if_false] at h
              by_cases h3 : c = '\\'
              · simp only [h3, if_true] at h
                simpa [shlexAux, h1, h2, h3] using ih .escWord cur q acc h
              · simp only [h3, if_false] at h
                by_cases h4 : c = '\''
                · simp only [h4, if_true] at h
                  simpa [shlexAux, h1, h2, h3, h4] using ih .singleQ cur q acc h
                · simp only [h4, if_false] at h
                  by_cases h5 : c = '"'
                  · simp only [h5, if_true] at h
                    simpa [shlexAux, h1, h2, h3, h4, h5] using ih .doubleQ cur q acc h
                  · simp only [h5, if_false] at h
                    simpa [shlexAux, h1, h2, h3, h4, h5] using
                      ih .word (cur ++ [c]) q acc h
      | singleQ =>
          simp only [LexState.qmode, quoteScan] at h
          by_cases h1 : c = '\''
          · simp only [h1, if_true] at h
            simpa [shlexAux, h1] using ih .word cur true acc h
          · simp only [h1, if_false] at h
            simpa [shlexAux, h1] using ih .singleQ (cur ++ [c]) true acc h
      | doubleQ =>
          simp only [LexState.qmode, quoteScan] at h
          by_cases h1 : c = '"'
          · simp only [h1, if_true] at h
            simpa [shlexAux, h1] using ih .word cur true acc h
          · simp only [h1, if_false] at h
            by_cases h2 : c = '\\'
            · simp only [h2, if_true] at h
              simpa [shlexAux, h1, h2] using ih .escDouble cur true acc h
            · simp only [h2, if_false] at h
              simpa [shlexAux, h1, h2] using ih .doubleQ (cur ++ [c]) true acc h
      | escWord =>
          simp only [LexState.qmode, quoteScan] at h
          simpa [shlexAux] using ih .word (cur ++ [c]) q acc h
      | escDouble =>
          simp only [LexState.qmode, quoteScan] at h
          by_cases h1 : c = '\\' ∨ c = '"'
          · simpa [shlexAux, h1] using ih .doubleQ (cur ++ [c]) q acc h
          · simpa [shlexAux, h1] using ih .doubleQ (cur ++ ['\\', c]) q acc h
      | comment =>
          simp only [LexState.qmode, quoteScan] at h
          by_cases h1 : c = '\n'
          · simp only [h1, if_true] at h
            simpa [shlexAux, h1] using ih .ws [] false acc h
          · simp only [h1, if_false] at h
            simpa [shlexAux, h1] using ih .comment [] false acc h

/-! ## The claims -/

/-- C1: if some script token's expansion hits a missing environment
variable, the run aborts on the first such variable: the outcome names that
variable, its stderr line names it, the exit code is 1, and the external
tool is never invoked — regardless of later tokens (fail-fast). -/
theorem C1_missing_variable_fail_fast (extra : List String) (script : String)
    (env : Env) (tool : ToolBehavior) (ts1 : List String) (t : String)
    (ts2 : List String) (name : String)
    (hsplit : shlex_split script = .ok (ts1 ++ t :: ts2))
    (hok : ∀ u ∈ ts1, ∃ e, expand_env env u = .ok e)
    (hfail : expand_env env t = .error name) :
    main extra script env tool = .missingVariable name ∧
    (main extra script env tool).exitCode = 1 ∧
    (main extra script env tool).toolInvoked = false ∧
    (main extra script env tool).wrapperStderr =
      some ("Missing required environment variable: " ++ name) := by
  have hexp := expandTokens_error_first env ts1 t ts2 name hok hfail
  have hm : main extra script env tool = .missingVariable name := by
    simp [main, hsplit, hexp]
  exact ⟨hm, by rw [hm]; rfl, by rw [hm]; rfl, by rw [hm]; rfl⟩

theorem C1_witness :
    shlex_split "a $FOO b" = .ok (["a"] ++ "$FOO" :: ["b"]) ∧
    (∀ u ∈ ["a"], ∃ e, expand_env [] u = .ok e) ∧
    expand_env [] "$FOO" = .error "FOO" ∧
    main ["--dry-run"] "a $FOO b" [] (.exits 0) = .missingVariable "FOO" := by
  have hok : ∀ u ∈ ["a"], ∃ e, expand_env ([] : Env) u = .ok e := by
    intro u hu
    simp only [List.mem_singleton] at hu
    exact ⟨"a", by rw [hu]; rfl⟩
  exact ⟨rfl, hok, rfl,
    (C1_missing_variable_fail_fast ["--dry-run"] "a $FOO b" [] (.exits 0)
      ["a"] "$FOO" ["b"] "FOO" rfl hok rfl).1⟩

/-- C2: when the run reaches invocation, the argument vector is exactly the
tool name and fixed subcommands, then the pass-through arguments in the
order supplied, then the expanded script tokens in script order. -/
theorem C2_argument_vector_concatenation (extra : List String) (script : String)
    (env : Env) (code : Nat) (toks etoks : List String)
    (hsplit : shlex_split script = .ok toks)
    (hexp : expandTokens env toks = .ok etoks)
    (hne : etoks ≠ []) :
    main extra script env (.exits code) =
      .toolRan (["sui", "client", "ptb"] ++ extra ++ etoks) code := by
  simp [main, hsplit, hexp, baseCmd, List.isEmpty_iff, hne]

theorem C2_witness :
    shlex_split "a b" = .ok ["a", "b"] ∧
    expandTokens [] ["a", "b"] = .ok ["a", "b"] ∧
    (["a", "b"] : List String) ≠ [] ∧
    main ["--dry-run"] "a b" [] (.exits 0) =
      .toolRan (["sui", "client", "ptb"] ++ ["--dry-run"] ++ ["a", "b"]) 0 :=
  ⟨rfl, rfl, by decide,
    C2_argument_vector_concatenation ["--dry-run"] "a b" [] 0 ["a", "b"] ["a", "b"]
      rfl rfl (by decide)⟩

/-- C3: whenever the external tool runs to completion, the wrapper's exit
code equals the tool's exit code verbatim. -/
theorem C3_exit_code_propagation (extra : List String) (script : String)
    (env : Env) (code : Nat) (toks etoks : List String)
    (hsplit : shlex_split script = .ok toks)
    (hexp : expandTokens env toks = .ok etoks)
    (hne : etoks ≠ []) :
    (main extra script env (.exits code)).exitCode = code := by
  simp [main, hsplit, hexp, List.isEmpty_iff, hne, RunResult.exitCode]

theorem C3_witness :
    shlex_split "a" = .ok ["a"] ∧
    expandTokens [] ["a"] = .ok ["a"] ∧
    (["a"] : List String) ≠ [] ∧
    (main [] "a" [] (.exits 3)).exitCode = 3 :=
  ⟨rfl, rfl, by decide,
    C3_exit_code_propagation [] "a" [] 3 ["a"] ["a"] rfl rfl (by decide)⟩

/-- C4: a script of only comments and/or whitespace tokenizes to zero
tokens; the run then fails with the empty-script condition: exit code 1, an
error message on stderr, and no tool invocation. -/
theorem C4_comments_only_empty_script (extra : List String) (script : String)
    (env : Env) (tool : ToolBehavior)
    (h : commentsOnly false script.toList = true) :
    shlex_split script = .ok [] ∧
    main extra script env tool = .emptyScript ∧
    (main extra script env tool).exitCode = 1 ∧
    (main extra script env tool).toolInvoked = false ∧
    (main extra script env tool).errorOnStderr = true := by
  have hs : shlex_split script = .ok [] := by
    simpa [shlex_split] using shlexAux_commentsOnly script.toList false [] h
  have hm : main extra script env tool = .emptyScript := by
    simp [main, hs, expandTokens]
  exact ⟨hs, hm, by rw [hm]; rfl, by rw [hm]; rfl, by rw [hm]; rfl⟩

theorem C4_witness :
    commentsOnly false "# a comment\n  \t\n# more".toList = true ∧
    shlex_split "# a comment\n  \t\n# more" = .ok [] ∧
    main [] "# a comment\n  \t\n# more" [] (.exits 0) = .emptyScript :=
  ⟨by decide, (C4_comments_only_empty_script [] _ [] (.exits 0) (by decide)).1,
    (C4_comments_only_empty_script [] _ [] (.exits 0) (by decide)).2.1⟩

/-- C5: with every referenced name present, expansion (i) passes non-`$`
characters through unchanged, (ii) replaces a bare `$NAME` (maximal nonempty
run of word characters) with the environment value verbatim and continues
left-to-right on the remainder only — the substituted value is never
rescanned, (iii) likewise for a braced `${NAME}` (nonempty, any characters
except `}`), and (iv) passes a `$` through when no reference form matches at
it. -/
theorem C5_expansion_semantics (env : Env) (c : Char) (name rest : List Char)
    (v : String) :
    (c ≠ '$' →
      expandEnvChars env (c :: rest) =
        (expandEnvChars env rest).map (fun e => c :: e)) ∧
    (name ≠ [] → (∀ d ∈ name, isWordChar d = true) →
      (∀ d, rest.head? = some d → isWordChar d = false) →
      lookupEnv env (String.mk name) = some v →
      expandEnvChars env ('$' :: name ++ rest) =
        (expandEnvChars env rest).map (fun e => v.toList ++ e)) ∧
    (name ≠ [] → (∀ d ∈ name, d ≠ '}') →
      lookupEnv env (String.mk name) = some v →
      expandEnvChars env ('$' :: '{' :: name ++ '}' :: rest) =
        (expandEnvChars env rest).map (fun e => v.toList ++ e)) ∧
    ((∀ d, rest.head? = some d → isWordChar d = false ∧ d ≠ '{' ∧ d ≠ '$') →
      expandEnvChars env ('$' :: rest) =
        (expandEnvChars env rest).map (fun e => '$' :: e)) := by
  refine ⟨?_, ?_, ?_, ?_⟩
  · intro hc
    simp [expandEnvChars, expandFullAux, hc]
  · intro hne hword hrest hlook
    cases name with
    | nil => exact absurd rfl hne
    | cons n ns =>
        have hn : isWordChar n = true := hword n (List.mem_cons_self n ns)
        have hstep : expandEnvChars env ('$' :: (n :: ns) ++ rest) =
            expandFullAux env (.name [n]) (ns ++ rest) := by
          simp [expandEnvChars, expandFullAux, hn]
        rw [hstep, expandFull_name_append env ns [n] rest
          (fun d hd => hword d (List.mem_cons_of_mem n hd)) hrest]
        simpa [expandEnvChars] using
          (by simp [resolveK, hlook] :
            resolveK env (n :: ns) (expandFullAux env .normal rest) =
              (expandFullAux env .normal rest).map (fun e => v.toList ++ e))
  · intro hne hbr hlook
    have hstep : expandEnvChars env ('$' :: '{' :: name ++ '}' :: rest) =
        expandFullAux env (.brace []) (name ++ '}' :: rest) := by
      simp [expandEnvChars, expandFullAux, show isWordChar '{' = false from rfl]
    rw [hstep, expandFull_brace_append env name [] rest hbr (by simpa using hne)]
    simpa [expandEnvChars] using
      (by simp [resolveK, hlook] :
        resolveK env ([] ++ name) (expandFullAux env .normal rest) =
          (expandFullAux env .normal rest).map (fun e => v.toList ++ e))
  · intro hrest
    cases rest with
    | nil => simp [expandEnvChars, expandFullAux, Except.map]
    | cons d r =>
        obtain ⟨hw, hbr, hdl⟩ := hrest d rfl
        have hstep : expandEnvChars env ('$' :: d :: r) =
            (expandFullAux env .normal r).map (fun e => '$' :: d :: e) := by
          simp [expandEnvChars, expandFullAux, hw, hbr, hdl]
        have hrhs : expandEnvChars env (d :: r) =
            (expandFullAux env .normal r).map (fun e => d :: e) := by
          simp [expandEnvChars, expandFullAux, hdl]
        rw [hstep, hrhs]
        cases expandFullAux env .normal r <;> simp [Except.map]

theorem C5_witness :
    (('a' : Char) ≠ '$') ∧
    (expandEnvChars [("FOO", "x $y")] ('a' :: ['b']) =
      (expandEnvChars [("FOO", "x $y")] ['b']).map (fun e => 'a' :: e)) ∧
    ("FOO".toList ≠ ([] : List Char)) ∧
    (∀ d ∈ "FOO".toList, isWordChar d = true) ∧
    (lookupEnv [("FOO", "x $y")] (String.mk "FOO".toList) = some "x $y") ∧
    (expandEnvChars [("FOO", "x $y")] ('$' :: "FOO".toList ++ []) =
      (expandEnvChars [("FOO", "x $y")] []).map (fun e => "x $y".toList ++ e)) ∧
    (∀ d ∈ "FOO".toList, d ≠ '}') ∧
    (expandEnvChars [("FOO", "x $y")] ('$' :: '{' :: "FOO".toList ++ '}' :: ['z']) =
      (expandEnvChars [("FOO", "x $y")] ['z']).map (fun e => "x $y".toList ++ e)) ∧
    (expandEnvChars [("FOO", "x $y")] ('$' :: '-' :: ['z']) =
      (expandEnvChars [("FOO", "x $y")] ('-' :: ['z'])).map (fun e => '$' :: e)) := by
  refine ⟨by decide, ?_, by decide, by decide, rfl, ?_, by decide, ?_, ?_⟩
  · exact (C5_expansion_semantics [("FOO", "x $y")] 'a' [] ['b'] "x $y").1 (by decide)
  · exact (C5_expansion_semantics [("FOO", "x $y")] 'a' "FOO".toList [] "x $y").2.1
      (by decide) (by decide) (fun d hd => by simp at hd) rfl
  · exact (C5_expansion_semantics [("FOO", "x $y")] 'a' "FOO".toList ['z'] "x $y").2.2.1
      (by decide) (by decide) rfl
  · exact (C5_expansion_semantics [("FOO", "x $y")] 'a' [] ('-' :: ['z']) "x $y").2.2.2
      (fun d hd => by
        simp only [List.head?_cons, Option.some.injEq] at hd
        subst hd
        decide)

/-- C6: when the run reaches invocation, the script-derived part of the
argument vector corresponds token for token, in order, to the tokenization
output: expansion is token-wise (its output never re-tokenized), so counts
and order agree even when a substituted value contains whitespace or
quotes. -/
theorem C6_tokenwise_expansion (extra : List String) (script : String)
    (env : Env) (code : Nat) (toks etoks : List String)
    (hsplit : shlex_split script = .ok toks)
    (hexp : expandTokens env toks = .ok etoks)
    (hne : etoks ≠ []) :
    main extra script env (.exits code) =
      .toolRan (baseCmd ++ extra ++ etoks) code ∧
    etoks.length = toks.length ∧
    List.Forall₂ (fun t e => expand_env env t = .ok e) toks etoks := by
  have hf := expandTokens_forall2 env toks etoks hexp
  refine ⟨?_, hf.length_eq.symm, hf⟩
  simp [main, hsplit, hexp, List.isEmpty_iff, hne]

theorem C6_witness :
    shlex_split "say $MSG" = .ok ["say", "$MSG"] ∧
    expandTokens [("MSG", "hello world")] ["say", "$MSG"] =
      .ok ["say", "hello world"] ∧
    (["say", "hello world"] : List String) ≠ [] ∧
    main [] "say $MSG" [("MSG", "hello world")] (.exits 0) =
      .toolRan (baseCmd ++ [] ++ ["say", "hello world"]) 0 ∧
    List.Forall₂ (fun t e => expand_env [("MSG", "hello world")] t = .ok e)
      ["say", "$MSG"] ["say", "hello world"] := by
  have h := C6_tokenwise_expansion [] "say $MSG" [("MSG", "hello world")] 0
    ["say", "$MSG"] ["say", "hello world"] rfl rfl (by decide)
  exact ⟨rfl, rfl, by decide, h.1, h.2.2⟩

/-- C7: when the external tool cannot be found or started, the run fails
with the launch error, the wrapper's exit is non-zero (distinct from a clean
run), an error indication goes to stderr, and the tool never ran. -/
theorem C7_launch_error (extra : List String) (script : String) (env : Env)
    (toks etoks : List String)
    (hsplit : shlex_split script = .ok toks)
    (hexp : expandTokens env toks = .ok etoks)
    (hne : etoks ≠ []) :
    main extra script env .notFound = .launchError ∧
    (main extra script env .notFound).exitCode ≠ 0 ∧
    (main extra script env .notFound).toolInvoked = false ∧
    (main extra script env .notFound).errorOnStderr = true := by
  have hm : main extra script env .notFound = .launchError := by
    simp [main, hsplit, hexp, List.isEmpty_iff, hne]
  exact ⟨hm, by rw [hm]; decide, by rw [hm]; rfl, by rw [hm]; rfl⟩

theorem C7_witness :
    shlex_split "a" = .ok ["a"] ∧
    expandTokens [] ["a"] = .ok ["a"] ∧
    (["a"] : List String) ≠ [] ∧
    main [] "a" [] .notFound = .launchError ∧
    (main [] "a" [] .notFound).exitCode ≠ 0 := by
  have h := C7_launch_error [] "a" [] ["a"] ["a"] rfl rfl (by decide)
  exact ⟨rfl, rfl, by decide, h.1, h.2.1⟩

/-- Expanding a token that is exactly one bare reference `$name` resolves
the name against the environment and nothing else. -/
theorem expand_single_ref (env : Env) (name : List Char) (hne : name ≠ [])
    (hword : ∀ c ∈ name, isWordChar c = true) :
    expandEnvChars env ('$' :: name) = resolveK env name (.ok []) := by
  cases name with
  | nil => exact absurd rfl hne
  | cons n ns =>
      have hn : isWordChar n = true := hword n (List.mem_cons_self n ns)
      have h1 : expandEnvChars env ('$' :: n :: ns) =
          expandFullAux env (.name [n]) (ns ++ []) := by
        simp [expandEnvChars, expandFullAux, hn]
      rw [h1, expandFull_name_append env ns [n] []
        (fun d hd => hword d (List.mem_cons_of_mem n hd))
        (fun d hd => by simp at hd)]
      simp [expandFullAux]

/-- C8: a script text containing an unterminated single or double quote
fails in tokenization: an error rather than tokens, a non-zero exit, no
tool invocation, and an error indication on stderr. -/
theorem C8_unterminated_quote_fails (extra : List String) (script : String)
    (env : Env) (tool : ToolBehavior) (h : unterminatedQuote script = true) :
    (∃ msg, shlex_split script = .error msg ∧
      main extra script env tool = .tokenizationError msg) ∧
    (main extra script env tool).exitCode ≠ 0 ∧
    (main extra script env tool).toolInvoked = false ∧
    (main extra script env tool).errorOnStderr = true := by
  have hfail : (quoteScan LexState.ws.qmode script.toList).failing = true := by
    show (quoteScan .out script.toList).failing = true
    simp only [unterminatedQuote, Bool.or_eq_true, decide_eq_true_eq] at h
    rcases h with (h1 | h1) | h1 <;> rw [h1] <;> rfl
  obtain ⟨msg, hmsg⟩ := shlexAux_error_of_failing script.toList .ws [] false [] hfail
  have hs : shlex_split script = .error msg := hmsg
  have hm : main extra script env tool = .tokenizationError msg := by
    simp [main, hs]
  exact ⟨⟨msg, hs, hm⟩, by rw [hm]; simp [RunResult.exitCode],
    by rw [hm]; rfl, by rw [hm]; rfl⟩

theorem C8_witness :
    unterminatedQuote "move 'abc" = true ∧
    (main [] "move 'abc" [] (.exits 0)).toolInvoked = false ∧
    (main [] "move 'abc" [] (.exits 0)).exitCode ≠ 0 := by
  have h := C8_unterminated_quote_fails [] "move 'abc" [] (.exits 0) (by decide)
  exact ⟨by decide, h.2.2.1, h.2.1⟩

/-- C9, counterexample to the claim as stated: `"hello world"` tokenizes to
the single token `hello world`, but re-tokenizing that token yields the two
tokens `hello` and `world`, not the same single token. -/
theorem C9_counterexample :
    shlex_split "\"hello world\"" = .ok ["hello world"] ∧
    shlex_split "hello world" = .ok ["hello", "world"] ∧
    (["hello", "world"] : List String) ≠ ["hello world"] :=
  ⟨rfl, rfl, by decide⟩

/-- C9 as amended: re-tokenizing a single token string yields exactly that
one token, provided the token is nonempty and contains no character with a
lexical role (whitespace, `#`, `\`, `'`, `"`). -/
theorem C9_amended_idempotent_plain (t : List Char) (hne : t ≠ [])
    (hplain : ∀ c ∈ t, plainChar c = true) :
    shlex_split (String.mk t) = .ok [String.mk t] := by
  cases t with
  | nil => exact absurd rfl hne
  | cons c rest =>
      have hc := hplain c (List.mem_cons_self c rest)
      simp only [plainChar, Bool.and_eq_true, Bool.not_eq_true',
        decide_eq_false_iff_not] at hc
      obtain ⟨⟨⟨⟨hws, h1⟩, h2⟩, h3⟩, h4⟩ := hc
      have hstep : shlex_split (String.mk (c :: rest)) =
          shlexAux .word [c] false [] rest := by
        show shlexAux .ws [] false [] (c :: rest) = _
        simp [shlexAux, hws, h1, h2, h3, h4]
      rw [hstep, shlexAux_word_plain rest [c] false []
        (fun d hd => hplain d (List.mem_cons_of_mem c hd)) (by simp)]
      simp

theorem C9_witness :
    ("foo".toList ≠ ([] : List Char)) ∧
    (∀ c ∈ "foo".toList, plainChar c = true) ∧
    shlex_split (String.mk "foo".toList) = .ok [String.mk "foo".toList] :=
  ⟨by decide, by decide,
    C9_amended_idempotent_plain "foo".toList (by decide) (by decide)⟩

/-- C10: expansion applies to every token uniformly, regardless of quoting
in the script: a single-quoted `'$NAME'` tokenizes to the token `$NAME`
(quotes removed), whose expansion then substitutes the environment value
when `NAME` is set and aborts naming `NAME` when it is unset — single
quotes do not suppress expansion. -/
theorem C10_quoting_does_not_suppress_expansion (env : Env)
    (name : List Char) (v : String) (hne : name ≠ [])
    (hword : ∀ c ∈ name, isWordChar c = true) :
    shlex_split (String.mk ('\'' :: '$' :: name ++ ['\''])) =
      .ok [String.mk ('$' :: name)] ∧
    (lookupEnv env (String.mk name) = some v →
      expand_env env (String.mk ('$' :: name)) = .ok v) ∧
    (lookupEnv env (String.mk name) = none →
      expand_env env (String.mk ('$' :: name)) = .error (String.mk name)) := by
  have hnq : ∀ c ∈ ('$' :: name), c ≠ '\'' := by
    intro c hc
    rcases List.mem_cons.mp hc with h | h
    · subst h; decide
    · intro heq
      subst heq
      exact absurd (hword _ h) (by decide)
  have hx : expandEnvChars env ('$' :: name) = resolveK env name (.ok []) :=
    expand_single_ref env name hne hword
  refine ⟨?_, ?_, ?_⟩
  · have hstep : shlex_split (String.mk ('\'' :: '$' :: name ++ ['\''])) =
        shlexAux .singleQ [] false [] (('$' :: name) ++ ['\'']) := rfl
    rw [hstep, shlexAux_singleQ_closed ('$' :: name) [] false [] hnq]
    simp
  · intro hlook
    have : expand_env env (String.mk ('$' :: name)) =
        (resolveK env name (.ok [])).map String.mk := by
      show (expandEnvChars env ('$' :: name)).map String.mk = _
      rw [hx]
    rw [this]
    simp [resolveK, hlook, Except.map]
  · intro hlook
    have : expand_env env (String.mk ('$' :: name)) =
        (resolveK env name (.ok [])).map String.mk := by
      show (expandEnvChars env ('$' :: name)).map String.mk = _
      rw [hx]
    rw [this]
    simp [resolveK, hlook, Except.map]

theorem C10_witness :
    ("FOO".toList ≠ ([] : List Char)) ∧
    (∀ c ∈ "FOO".toList, isWordChar c = true) ∧
    shlex_split (String.mk ('\'' :: '$' :: "FOO".toList ++ ['\''])) =
      .ok [String.mk ('$' :: "FOO".toList)] ∧
    expand_env [("FOO", "a b")] (String.mk ('$' :: "FOO".toList)) = .ok "a b" ∧
    expand_env [] (String.mk ('$' :: "FOO".toList)) =
      .error (String.mk "FOO".toList) := by
  refine ⟨by decide, by decide, ?_, ?_, ?_⟩
  · exact (C10_quoting_does_not_suppress_expansion [] "FOO".toList "a b"
      (by decide) (by decide)).1
  · exact (C10_quoting_does_not_suppress_expansion [("FOO", "a b")] "FOO".toList
      "a b" (by decide) (by decide)).2.1 rfl
  · exact (C10_quoting_does_not_suppress_expansion [] "FOO".toList "a b"
      (by decide) (by decide)).2.2 rfl

end RunPtb
